import Mathlib

/-!
Verification of the Saffron JSON-dialect parsing subsystem
(`crates/saffron-data/src/{tokenizer.rs, token_stream.rs, json.rs, error.rs}`).

The Rust code is shallowly embedded: the imperative `Tokenizer` becomes a
record threaded through pure functions, Rust `while` loops become
fuel-indexed structural recursions (each loop iteration consumes at least
one source character, so a fuel of `source.length + 1` is always enough for
the loop to run to its real exit condition), `Result<T, ParseError>`
becomes `Except ParseError T`, and `f64` is represented by the exact
rational value of the decimal numeral (the lexer grammar produces only
sign/digits/fraction numerals, on which Rust's float parsing is the
correctly-rounded image of that rational).
-/

namespace Saffron

/-- Token kinds, from `tokenizer.rs` (`enum TokenKind`). -/
inductive TokenKind where
  | String
  | Number
  | Boolean
  | LeftBrace
  | RightBrace
  | LeftBracket
  | RightBracket
  | Comma
  | Colon
  | Null
  | Identifier
  | EndOfFile
deriving DecidableEq, Repr

/-- The string Rust's `{:?}` formatting produces for a `TokenKind`
(derived `Debug` prints the bare variant name). -/
def debugStr : TokenKind → String
  | .String => "String"
  | .Number => "Number"
  | .Boolean => "Boolean"
  | .LeftBrace => "LeftBrace"
  | .RightBrace => "RightBrace"
  | .LeftBracket => "LeftBracket"
  | .RightBracket => "RightBracket"
  | .Comma => "Comma"
  | .Colon => "Colon"
  | .Null => "Null"
  | .Identifier => "Identifier"
  | .EndOfFile => "EndOfFile"

/-- Byte-span metadata, from `tokenizer.rs` (`struct Span(pub usize, pub usize)`). -/
structure Span where
  left : Nat
  right : Nat
deriving DecidableEq, Repr

/-- A token, from `tokenizer.rs` (`struct Token`). -/
structure Token where
  kind : TokenKind
  lexeme : String
  line : Nat
  column : Nat
  span : Span
deriving DecidableEq, Repr

/-- `Token::new`. -/
def Token.new (kind : TokenKind) (lexeme : String) (line column : Nat)
    (span : Span) : Token :=
  { kind := kind, lexeme := lexeme, line := line, column := column, span := span }

/-- The flat error type, from `error.rs` (`struct ParseError`). -/
structure ParseError where
  message : String
deriving DecidableEq, Repr

/-- Message built by `ParseError::new(format!("Invalid character '{}' at line {}", c, line))`. -/
def invalidCharMsg (c : Char) (line : Nat) : String :=
  "Invalid character \x27" ++ String.mk [c] ++ "\x27 at line " ++ toString line

/-- Message built for an unterminated string literal in `Tokenizer::string`. -/
def unterminatedMsg (line : Nat) : String :=
  "Unterminated string at line " ++ toString line ++ "."

/-- Lexer state, from `tokenizer.rs` (`struct Tokenizer`); `source` is the
`Vec<char>` obtained from `source.chars().collect()`. -/
structure Tokenizer where
  source : List Char
  line : Nat
  column : Nat
  start : Nat
  length : Nat
  tokens : List Token
deriving Repr

/-- `Tokenizer::new`. -/
def Tokenizer.new (source : String) : Tokenizer :=
  { source := source.data, line := 1, column := 1, start := 0, length := 0, tokens := [] }

/-- `Tokenizer::is_digit` (`c.is_ascii_digit()`). -/
def is_digit (c : Char) : Bool :=
  48 ≤ c.toNat && c.toNat ≤ 57

/-- `Tokenizer::is_alpha` (`c.is_ascii_lowercase() || c.is_ascii_uppercase()`). -/
def is_alpha (c : Char) : Bool :=
  (97 ≤ c.toNat && c.toNat ≤ 122) || (65 ≤ c.toNat && c.toNat ≤ 90)

/-- `Tokenizer::is_alpha_numeric`. -/
def is_alpha_numeric (c : Char) : Bool :=
  is_digit c || is_alpha c

/-- `Tokenizer::is_at_end` (`start + length >= source.len()`). -/
def Tokenizer.is_at_end (t : Tokenizer) : Bool :=
  t.source.length ≤ t.start + t.length

/-- `Tokenizer::peek` (`source.get(start + length).cloned().unwrap_or('\0')`). -/
def Tokenizer.peek (t : Tokenizer) : Char :=
  t.source.getD (t.start + t.length) '\x00'

/-- `Tokenizer::peek_next`. -/
def Tokenizer.peek_next (t : Tokenizer) : Char :=
  t.source.getD (t.start + t.length + 1) '\x00'

/-- `Tokenizer::advance`: returns the character at the cursor (if any) and
the state with `length` and `column` incremented; at end of input it
returns `none` and leaves the state unchanged. -/
def Tokenizer.advance (t : Tokenizer) : Option Char × Tokenizer :=
  if t.is_at_end then (none, t)
  else (t.source.getD (t.start + t.length) '\x00',
        { t with length := t.length + 1, column := t.column + 1 })

/-- `Tokenizer::check` (`!is_at_end && c == peek`). -/
def Tokenizer.check (t : Tokenizer) (c : Char) : Bool :=
  if t.is_at_end then false else c = t.peek

/-- `Tokenizer::sync_cursors`. -/
def Tokenizer.sync_cursors (t : Tokenizer) : Tokenizer :=
  { t with start := t.start + t.length, length := 0 }

/-- `Tokenizer::make_token_with_lexeme`: pushes a token carrying the
current line/column and the span `(start, start + length)`. -/
def Tokenizer.make_token_with_lexeme (t : Tokenizer) (kind : TokenKind)
    (lexeme : String) : Tokenizer :=
  { t with tokens := t.tokens ++ [Token.new kind lexeme t.line t.column ⟨t.start, t.start + t.length⟩] }

/-- `Tokenizer::make_token`: lexeme is the scanned slice `source[start..start+length]`. -/
def Tokenizer.make_token (t : Tokenizer) (kind : TokenKind) : Tokenizer :=
  t.make_token_with_lexeme kind (String.mk ((t.source.drop t.start).take t.length))

/-- The `while is_digit(peek) { advance }` loop inside `Tokenizer::number`,
as a fuel-indexed recursion. -/
def Tokenizer.numberLoop : Nat → Tokenizer → Tokenizer
  | 0, t => t
  | fuel + 1, t =>
    if is_digit t.peek then Tokenizer.numberLoop fuel (t.advance).2 else t

/-- `Tokenizer::number`: integer digits, then optionally a dot followed by
at least one digit (a dot not followed by a digit is left unconsumed). -/
def Tokenizer.number (t : Tokenizer) : Tokenizer :=
  let t := Tokenizer.numberLoop (t.source.length + 1) t
  let t :=
    if t.check '.' && is_digit t.peek_next then
      Tokenizer.numberLoop (t.source.length + 1) (t.advance).2
    else t
  t.make_token_with_lexeme .Number (String.mk ((t.source.drop t.start).take t.length))

/-- The escape-resolution match inside `Tokenizer::string`: the character
appended to the decoded value when `c` follows a backslash. -/
def escapeChar (c : Char) : Char :=
  if c = 'n' then '\n'
  else if c = 't' then '\t'
  else if c = 'r' then '\r'
  else if c = '\\' then '\\'
  else if c = '"' then '"'
  else if c = '\x27' then '\x27'
  else c

/-- The line/column bookkeeping plus `advance()` performed at the bottom of
each iteration of the `Tokenizer::string` loop for the processed character `c`. -/
def Tokenizer.stringAdvance (t : Tokenizer) (c : Char) : Tokenizer :=
  let t :=
    if c = '\n' then { t with line := t.line + 1, column := 0 }
    else { t with column := t.column + 1 }
  (t.advance).2

/-- The `while !is_at_end` scanning loop of `Tokenizer::string`, as a
fuel-indexed recursion; returns the state, decoded value and escape flag at
loop exit (the `break` on an unescaped closing quote exits before the
cursor moves past the quote). -/
def Tokenizer.stringLoop : Nat → Tokenizer → Char → List Char → Bool → Tokenizer × List Char × Bool
  | 0, t, _, value, escaped => (t, value, escaped)
  | fuel + 1, t, endq, value, escaped =>
    if t.is_at_end then (t, value, escaped)
    else
      let c := t.peek
      if escaped then
        Tokenizer.stringLoop fuel (t.stringAdvance c) endq (value ++ [escapeChar c]) false
      else if c = '\\' then
        Tokenizer.stringLoop fuel (t.stringAdvance c) endq value true
      else if c = endq then (t, value, escaped)
      else
        Tokenizer.stringLoop fuel (t.stringAdvance c) endq (value ++ [c]) false

/-- `Tokenizer::string`: scan until the unescaped quote `endq`; if the loop
ran off the end of the input, report an unterminated string at the current
line; otherwise consume the closing quote and emit a `String` token whose
lexeme is the decoded value. -/
def Tokenizer.string (t : Tokenizer) (endq : Char) : Except ParseError Tokenizer :=
  let r := Tokenizer.stringLoop (t.source.length + 1) t endq [] false
  let t := r.1
  let value := r.2.1
  if t.is_at_end then
    .error ⟨unterminatedMsg t.line⟩
  else
    let t := (t.advance).2
    .ok (t.make_token_with_lexeme .String (String.mk value))

/-- The `while is_alpha_numeric(peek) { advance }` loop inside
`Tokenizer::identifier_or_keyword`. -/
def Tokenizer.identLoop : Nat → Tokenizer → Tokenizer
  | 0, t => t
  | fuel + 1, t =>
    if is_alpha_numeric t.peek then Tokenizer.identLoop fuel (t.advance).2 else t

/-- `Tokenizer::identifier_or_keyword`: scan letters/digits, then classify
the lexeme as `Boolean` (`true`/`false`), `Null` (`null`) or `Identifier`. -/
def Tokenizer.identifier_or_keyword (t : Tokenizer) : Tokenizer :=
  let t := Tokenizer.identLoop (t.source.length + 1) t
  let lexeme := String.mk ((t.source.drop t.start).take t.length)
  if lexeme = "true" || lexeme = "false" then
    t.make_token_with_lexeme .Boolean lexeme
  else if lexeme = "null" then
    t.make_token_with_lexeme .Null lexeme
  else
    t.make_token_with_lexeme .Identifier lexeme

/-- `Tokenizer::scan_token`: commit the previous token's span, consume one
character and dispatch on it (the Rust `match`, rendered as an
equivalent decision chain in source order). -/
def Tokenizer.scan_token (t : Tokenizer) : Except ParseError Tokenizer :=
  let t := t.sync_cursors
  let p := t.advance
  let c := p.1.getD '\x00'
  let t := p.2
  if c = '\n' then .ok { t with column := 1, line := t.line + 1 }
  else if c = ' ' then .ok t
  else if c = '\t' then .ok t
  else if c = '\r' then .ok t
  else if c = '[' then .ok (t.make_token .LeftBracket)
  else if c = ']' then .ok (t.make_token .RightBracket)
  else if c = '{' then .ok (t.make_token .LeftBrace)
  else if c = '}' then .ok (t.make_token .RightBrace)
  else if c = ',' then .ok (t.make_token .Comma)
  else if c = ':' then .ok (t.make_token .Colon)
  else if c = '"' then t.string '"'
  else if c = '\x27' then t.string '\x27'
  else if c = '-' then
    if is_digit t.peek then .ok t.number
    else .error ⟨invalidCharMsg c t.line⟩
  else if is_digit c then .ok t.number
  else if is_alpha c then .ok t.identifier_or_keyword
  else .error ⟨invalidCharMsg c t.line⟩

/-- Token-cursor state, from `token_stream.rs` (`struct TokenStream`). -/
structure TokenStream where
  tokens : List Token
  position : Nat
deriving DecidableEq, Repr

/-- `TokenStream::new`. -/
def TokenStream.new (tokens : List Token) : TokenStream :=
  { tokens := tokens, position := 0 }

/-- The synthetic sentinel `Token::new(TokenKind::EndOfFile, "\0", 0, 0, Span(0, 0))`
returned by the cursor accessors on an empty token list. -/
def emptySentinel : Token :=
  Token.new .EndOfFile "\x00" 0 0 ⟨0, 0⟩

/-- The `while !is_at_end { scan_token()? }` loop of `Tokenizer::scan_tokens`,
as a fuel-indexed recursion (each iteration consumes at least one character). -/
def Tokenizer.scanLoop : Nat → Tokenizer → Except ParseError Tokenizer
  | 0, t => if t.is_at_end then .ok t else .error ⟨"internal: scanLoop fuel exhausted"⟩
  | fuel + 1, t =>
    if t.is_at_end then .ok t
    else
      match t.scan_token with
      | .error e => .error e
      | .ok t' => Tokenizer.scanLoop fuel t'

/-- `Tokenizer::scan_tokens`: scan the whole source, then append the
`EndOfFile` token with lexeme `"\0"`. -/
def Tokenizer.scan_tokens (t : Tokenizer) : Except ParseError TokenStream :=
  match Tokenizer.scanLoop (t.source.length + 1) t with
  | .error e => .error e
  | .ok t' => .ok (TokenStream.new (t'.make_token_with_lexeme .EndOfFile "\x00").tokens)

/-- `TokenStream::previous`: clamps to the first token at position 0 and to
the last token when the position exceeds the length (the defaults fed to
`getD` are unreachable: the list is non-empty and the index in bounds). -/
def TokenStream.previous (ts : TokenStream) : Token :=
  if ts.tokens.isEmpty then emptySentinel
  else if ts.position = 0 then ts.tokens.getD 0 emptySentinel
  else
    let pos := if ts.tokens.length < ts.position then ts.tokens.length - 1 else ts.position - 1
    ts.tokens.getD pos emptySentinel

/-- `TokenStream::current`: the token at the cursor, clamped to the last
token when the position is at or past the end. -/
def TokenStream.current (ts : TokenStream) : Token :=
  if ts.tokens.isEmpty then emptySentinel
  else if ts.tokens.length ≤ ts.position then ts.tokens.getLastD emptySentinel
  else ts.tokens.getD ts.position emptySentinel

/-- `TokenStream::advance`: step the cursor forward and return (via
`previous`) the token that was just consumed, paired with the new state. -/
def TokenStream.advance (ts : TokenStream) : Token × TokenStream :=
  let ts := { ts with position := ts.position + 1 }
  (ts.previous, ts)

/-- `TokenStream::look_ahead`. -/
def TokenStream.look_ahead (ts : TokenStream) (k : Nat) : Token :=
  if ts.tokens.isEmpty then emptySentinel
  else if ts.tokens.length ≤ ts.position + k then ts.tokens.getLastD emptySentinel
  else ts.tokens.getD (ts.position + k) emptySentinel

/-- `advance()` iterated `n` times (discarding the returned tokens). -/
def TokenStream.advanceN (ts : TokenStream) : Nat → TokenStream
  | 0 => ts
  | n + 1 => TokenStream.advanceN (ts.advance).2 n

/-- The parser's value tree, from `json.rs` (`enum JsonElement`); `Number`
holds the exact rational value of the numeral standing in for the Rust
`f64`, and `Object` models the Rust `HashMap<String, JsonElement>` as an
association list (the hash map is unordered with unique keys; the list
records entries in first-insertion order). -/
inductive JsonElement where
  | Number (value : ℚ)
  | String (value : String)
  | Boolean (value : Bool)
  | Array (items : List JsonElement)
  | Object (map : List (String × JsonElement))
  | Null

/-- `HashMap::insert` on the association-list model: replace the value
stored under an existing key in place, otherwise append the new entry. -/
def insertHM (m : List (String × JsonElement)) (k : String) (v : JsonElement) :
    List (String × JsonElement) :=
  match m with
  | [] => [(k, v)]
  | (k', v') :: rest => if k' = k then (k, v) :: rest else (k', v') :: insertHM rest k v

/-- Value of a list of ASCII digit characters read in base 10. -/
def digitsVal (ds : List Char) : Nat :=
  ds.foldl (fun a c => 10 * a + (c.toNat - 48)) 0

/-- The exact rational value of the decimal numeral with optional minus
sign `neg`, integer digits `ds` and optional fraction digits `frac`. -/
def decimalVal (neg : Bool) (ds : List Char) (frac : Option (List Char)) : ℚ :=
  match frac with
  | none => if neg then -(digitsVal ds : ℚ) else (digitsVal ds : ℚ)
  | some fs =>
    (if neg then -1 else 1) * ((digitsVal ds : ℚ) + (digitsVal fs : ℚ) / (10 : ℚ) ^ fs.length)

/-- Rust `str::parse::<f64>()` as used on lexer-produced `Number` lexemes,
with the IEEE-754 double modelled by the exact rational value of the
numeral: an optional leading minus sign, one or more integer digits, and
an optional fraction introduced by a dot; anything else (exponent
notation included, which the lexer cannot produce) yields `none`. -/
def parseF64 (s : String) : Option ℚ :=
  let cs := s.data
  let neg := cs.headD '\x00' = '-'
  let cs1 := if neg then cs.tail else cs
  let ds := cs1.takeWhile is_digit
  let rest := cs1.dropWhile is_digit
  if ds = [] then none
  else
    match rest with
    | [] => some (decimalVal neg ds none)
    | '.' :: after =>
      let fs := after.takeWhile is_digit
      if after.dropWhile is_digit = [] then some (decimalVal neg ds (some fs))
      else none
    | _ => none

/-- Message `format!("Unexpected token: {:?}", tk.kind)` from `parse_value`. -/
def unexpectedTokenMsg (k : TokenKind) : String :=
  "Unexpected token: " ++ debugStr k

/-- Message `format!("Invalid number '{}'", t.lexeme)` from `parse_value`. -/
def invalidNumberMsg (lexeme : String) : String :=
  "Invalid number \x27" ++ lexeme ++ "\x27"

/-- Message `format!("Invalid boolean literal '{}'", other)` from `parse_value`. -/
def invalidBooleanMsg (lexeme : String) : String :=
  "Invalid boolean literal \x27" ++ lexeme ++ "\x27"

/-- Message `format!("Expected string key in object, found {:?}", key_token.kind)`. -/
def expectedStringKeyMsg (k : TokenKind) : String :=
  "Expected string key in object, found " ++ debugStr k

/-- Message `format!("Expected ',' or '}}' in object, found {:?}", other)`. -/
def expectedCommaBraceMsg (k : TokenKind) : String :=
  "Expected \x27,\x27 or \x27\x7d\x27 in object, found " ++ debugStr k

/-- Message `format!("Expected ',' or ']' in array, found {:?}", other)`. -/
def expectedCommaBracketMsg (k : TokenKind) : String :=
  "Expected \x27,\x27 or \x27]\x27 in array, found " ++ debugStr k

mutual

/-- `parse_value` from `Json::parse_tokens`: dispatch on the current
token's kind. The first argument is recursion fuel standing in for Rust's
unbounded call stack; every recursive call strictly decreases it, and the
entry point supplies enough fuel for any run over a stream whose final
token is `EndOfFile` (on such streams the cursor position strictly
increases between successive calls and errors out once past the end). -/
def parse_value : Nat → TokenStream → Except ParseError (JsonElement × TokenStream)
  | 0, _ => .error ⟨"internal: parser fuel exhausted"⟩
  | fuel + 1, tokens =>
    let tk := tokens.current
    match tk.kind with
    | .String =>
      let (t, tokens) := tokens.advance
      .ok (.String t.lexeme, tokens)
    | .Number =>
      let (t, tokens) := tokens.advance
      match parseF64 t.lexeme with
      | none => .error ⟨invalidNumberMsg t.lexeme⟩
      | some n => .ok (.Number n, tokens)
    | .Boolean =>
      let (t, tokens) := tokens.advance
      if t.lexeme = "true" then .ok (.Boolean true, tokens)
      else if t.lexeme = "false" then .ok (.Boolean false, tokens)
      else .error ⟨invalidBooleanMsg t.lexeme⟩
    | .Null =>
      let (_, tokens) := tokens.advance
      .ok (.Null, tokens)
    | .LeftBrace => parse_object fuel tokens
    | .LeftBracket => parse_array fuel tokens
    | k => .error ⟨unexpectedTokenMsg k⟩

/-- `parse_object` from `Json::parse_tokens`: `'{'`, then either an
immediate `'}'` (empty object) or the member loop. -/
def parse_object : Nat → TokenStream → Except ParseError (JsonElement × TokenStream)
  | 0, _ => .error ⟨"internal: parser fuel exhausted"⟩
  | fuel + 1, tokens =>
    if tokens.current.kind ≠ .LeftBrace then
      .error ⟨"Expected \x27\x7b\x27 at start of object"⟩
    else
      let (_, tokens) := tokens.advance
      if tokens.current.kind = .RightBrace then
        let (_, tokens) := tokens.advance
        .ok (.Object [], tokens)
      else objectLoop fuel tokens []

/-- The member `loop` inside `parse_object`: `String` key, `':'`, value
(inserted over any earlier value for the same key), then `','` (iterate;
another member is mandatory) or `'}'` (stop); anything else errors. -/
def objectLoop : Nat → TokenStream → List (String × JsonElement) →
    Except ParseError (JsonElement × TokenStream)
  | 0, _, _ => .error ⟨"internal: parser fuel exhausted"⟩
  | fuel + 1, tokens, map =>
    let key_token := tokens.current
    if key_token.kind ≠ .String then
      .error ⟨expectedStringKeyMsg key_token.kind⟩
    else
      let (kt, tokens) := tokens.advance
      if tokens.current.kind ≠ .Colon then
        .error ⟨"Expected \x27:\x27 after object key"⟩
      else
        let (_, tokens) := tokens.advance
        match parse_value fuel tokens with
        | .error e => .error e
        | .ok (value, tokens) =>
          let map := insertHM map kt.lexeme value
          match tokens.current.kind with
          | .Comma =>
            let (_, tokens) := tokens.advance
            objectLoop fuel tokens map
          | .RightBrace =>
            let (_, tokens) := tokens.advance
            .ok (.Object map, tokens)
          | k => .error ⟨expectedCommaBraceMsg k⟩

/-- `parse_array` from `Json::parse_tokens`: `'['`, then either an
immediate `']'` (empty array) or the element loop. -/
def parse_array : Nat → TokenStream → Except ParseError (JsonElement × TokenStream)
  | 0, _ => .error ⟨"internal: parser fuel exhausted"⟩
  | fuel + 1, tokens =>
    if tokens.current.kind ≠ .LeftBracket then
      .error ⟨"Expected \x27[\x27 at start of array"⟩
    else
      let (_, tokens) := tokens.advance
      if tokens.current.kind = .RightBracket then
        let (_, tokens) := tokens.advance
        .ok (.Array [], tokens)
      else arrayLoop fuel tokens []

/-- The element `loop` inside `parse_array`: a value, then `','` (iterate;
another element is mandatory) or `']'` (stop); anything else errors. -/
def arrayLoop : Nat → TokenStream → List JsonElement →
    Except ParseError (JsonElement × TokenStream)
  | 0, _, _ => .error ⟨"internal: parser fuel exhausted"⟩
  | fuel + 1, tokens, items =>
    match parse_value fuel tokens with
    | .error e => .error e
    | .ok (value, tokens) =>
      let items := items ++ [value]
      match tokens.current.kind with
      | .Comma =>
        let (_, tokens) := tokens.advance
        arrayLoop fuel tokens items
      | .RightBracket =>
        let (_, tokens) := tokens.advance
        .ok (.Array items, tokens)
      | k => .error ⟨expectedCommaBracketMsg k⟩

end

/-- `Json::parse_tokens`: one `parse_value` from the start of the stream;
trailing tokens after the first complete value are not examined. The fuel
`2 * tokens.length + 4` dominates every terminating Rust run: between
successive fuel decrements the cursor position strictly increases and a
position past an `EndOfFile`-terminated stream immediately errors. -/
def parse_tokens (tokens : TokenStream) : Except ParseError JsonElement :=
  match parse_value (2 * tokens.tokens.length + 4) tokens with
  | .error e => .error e
  | .ok (value, _) => .ok value

/-- The parsed document, from `json.rs` (`struct Json`). -/
structure Json where
  root : JsonElement

/-- `Json::_parse`, exposed by the `Parse` impl as `Json::parse`:
tokenize fully, then build the tree. -/
def Json.parse (source : String) : Except ParseError Json :=
  match (Tokenizer.new source).scan_tokens with
  | .error e => .error e
  | .ok tokens =>
    match parse_tokens tokens with
    | .error e => .error e
    | .ok root => .ok ⟨root⟩

/-- Whether the remaining characters of a string literal contain an
occurrence of the closing quote `endq` that is not preceded by an odd run
of backslashes — exactly the condition under which the scanning loop of
`Tokenizer::string` stops at a closing quote instead of running off the
end of the input (`escaped` is the state of the escape flag on entry). -/
def hasCloser : List Char → Char → Bool → Bool
  | [], _, _ => false
  | _ :: rest, endq, true => hasCloser rest endq false
  | c :: rest, endq, false =>
    if c = '\\' then hasCloser rest endq true
    else if c = endq then true
    else hasCloser rest endq false

/-- The trailing characters contributed by an optional fraction part. -/
def fracTail : Option (List Char) → List Char
  | none => []
  | some fs => '.' :: fs

/-- The number of characters contributed by an optional fraction part
(the dot plus the fraction digits). -/
def fracLen : Option (List Char) → Nat
  | none => 0
  | some fs => fs.length + 1

/-- The character list of the decimal numeral with optional minus sign
`neg`, integer digits `ds` and optional fraction digits `frac`. -/
def numeralChars (neg : Bool) (ds : List Char) (frac : Option (List Char)) : List Char :=
  (if neg then ['-'] else []) ++ ds ++ fracTail frac

/-! ## Helper lemmas -/

theorem getD_eq_headD_drop (l : List Char) (n : Nat) (d : Char) :
    l.getD n d = (l.drop n).headD d := by
  induction l generalizing n with
  | nil => simp
  | cons c rest ih =>
    cases n with
    | zero => simp
    | succ m =>
      simp only [List.getD_cons_succ, List.drop_succ_cons]
      exact ih m

theorem getLastD_eq_getD_length_sub_one {α : Type} (l : List α) (d : α) (h : l ≠ []) :
    l.getLastD d = l.getD (l.length - 1) d := by
  induction l generalizing d with
  | nil => exact absurd rfl h
  | cons a rest ih =>
    cases rest with
    | nil => rfl
    | cons b rest2 =>
      rw [List.getLastD_cons, ih _ (by simp)]
      simp

theorem getLast_eq_getLastD {α : Type} (l : List α) (d : α) (h : l ≠ []) :
    l.getLast h = l.getLastD d := by
  cases l with
  | nil => exact absurd rfl h
  | cons a rest => rw [List.getLast_eq_getLastD, List.getLastD_cons]

theorem current_past_end (ts : TokenStream) (h1 : ts.tokens ≠ [])
    (h2 : ts.tokens.length ≤ ts.position) :
    ts.current = ts.tokens.getLastD emptySentinel := by
  simp only [TokenStream.current]
  rw [if_neg (by simp [List.isEmpty_iff, h1]), if_pos h2]

theorem look_ahead_past_end (ts : TokenStream) (h1 : ts.tokens ≠ [])
    (h2 : ts.tokens.length ≤ ts.position) (k : Nat) :
    ts.look_ahead k = ts.tokens.getLastD emptySentinel := by
  simp only [TokenStream.look_ahead]
  rw [if_neg (by simp [List.isEmpty_iff, h1]), if_pos (by omega)]

theorem advanceN_tokens (ts : TokenStream) (n : Nat) : (ts.advanceN n).tokens = ts.tokens := by
  induction n generalizing ts with
  | zero => rfl
  | succ m ih => exact ih (ts.advance).2

theorem advanceN_position_ge (ts : TokenStream) (n : Nat) :
    ts.position ≤ (ts.advanceN n).position := by
  induction n generalizing ts with
  | zero => exact Nat.le_refl _
  | succ m ih =>
    calc ts.position ≤ ts.position + 1 := Nat.le_succ _
    _ ≤ _ := ih (ts.advance).2

theorem lookup_insertHM (m : List (String × JsonElement)) (k : String) (v : JsonElement) :
    (insertHM m k v).lookup k = some v := by
  induction m with
  | nil => simp [insertHM]
  | cons p rest ih =>
    obtain ⟨k', v'⟩ := p
    by_cases h : k' = k
    · simp [insertHM, h]
    · have hbe : (k == k') = false := beq_eq_false_iff_ne.mpr fun hh => h hh.symm
      simp [insertHM, h, List.lookup, hbe, ih]

theorem mem_keys_insertHM (m : List (String × JsonElement)) (k : String) (v : JsonElement)
    (x : String) (hx : x ∈ (insertHM m k v).map Prod.fst) :
    x = k ∨ x ∈ m.map Prod.fst := by
  induction m with
  | nil => simpa [insertHM] using hx
  | cons p rest ih =>
    obtain ⟨k', v'⟩ := p
    by_cases h : k' = k
    · simp only [insertHM, if_pos h, List.map_cons, List.mem_cons] at hx
      rcases hx with rfl | hx
      · exact Or.inl rfl
      · exact Or.inr (by simp [hx])
    · simp only [insertHM, if_neg h, List.map_cons, List.mem_cons] at hx
      rcases hx with rfl | hx
      · exact Or.inr (by simp)
      · rcases ih hx with rfl | hmem
        · exact Or.inl rfl
        · exact Or.inr (by simp [hmem])

theorem nodup_keys_insertHM (m : List (String × JsonElement)) (k : String) (v : JsonElement)
    (h : (m.map Prod.fst).Nodup) : ((insertHM m k v).map Prod.fst).Nodup := by
  induction m with
  | nil => simp [insertHM]
  | cons p rest ih =>
    obtain ⟨k', v'⟩ := p
    simp only [List.map_cons, List.nodup_cons] at h
    by_cases hk : k' = k
    · subst hk
      simpa [insertHM, List.nodup_cons] using h
    · simp only [insertHM, if_neg hk, List.map_cons, List.nodup_cons]
      refine ⟨fun hmem => ?_, ih h.2⟩
      rcases mem_keys_insertHM rest k v k' hmem with rfl | hmem2
      · exact hk rfl
      · exact h.1 hmem2

theorem not_at_end_of_drop_cons {t : Tokenizer} {c : Char} {rest : List Char}
    (h : t.source.drop (t.start + t.length) = c :: rest) : t.is_at_end = false := by
  simp only [Tokenizer.is_at_end, decide_eq_false_iff_not, Nat.not_le]
  by_contra hle
  rw [List.drop_eq_nil_of_le (by omega)] at h
  exact List.noConfusion h

theorem peek_of_drop_cons {t : Tokenizer} {c : Char} {rest : List Char}
    (h : t.source.drop (t.start + t.length) = c :: rest) : t.peek = c := by
  rw [Tokenizer.peek, getD_eq_headD_drop, h, List.headD_cons]

theorem stringAdvance_fields (t : Tokenizer) (c : Char) (h : t.is_at_end = false) :
    (t.stringAdvance c).source = t.source
    ∧ (t.stringAdvance c).start = t.start
    ∧ (t.stringAdvance c).length = t.length + 1
    ∧ (t.stringAdvance c).line = (if c = '\n' then t.line + 1 else t.line) := by
  have h' : ¬ (t.source.length ≤ t.start + t.length) := by
    simpa [Tokenizer.is_at_end] using h
  by_cases hc : c = '\n' <;>
    simp [Tokenizer.stringAdvance, Tokenizer.advance, Tokenizer.is_at_end, hc, h']

theorem stringLoop_no_closer :
    ∀ (rem : List Char) (fuel : Nat) (t : Tokenizer) (endq : Char) (value : List Char)
      (escaped : Bool),
      t.source.drop (t.start + t.length) = rem →
      hasCloser rem endq escaped = false →
      rem.length ≤ fuel →
      ∃ t' v e, Tokenizer.stringLoop fuel t endq value escaped = (t', v, e)
        ∧ t'.is_at_end = true ∧ t'.line = t.line + rem.count '\n' := by
  intro rem
  induction rem with
  | nil =>
    intro fuel t endq value escaped hrem _ _
    have hend : t.is_at_end = true := by
      simp only [Tokenizer.is_at_end, decide_eq_true_eq]
      by_contra hle
      rw [List.drop_eq_nil_iff] at hrem
      omega
    refine ⟨t, value, escaped, ?_, hend, by simp⟩
    cases fuel with
    | zero => rfl
    | succ f => simp [Tokenizer.stringLoop, hend]
  | cons c rest ih =>
    intro fuel t endq value escaped hrem hno hfuel
    have hend := not_at_end_of_drop_cons hrem
    have hpeek := peek_of_drop_cons hrem
    obtain ⟨f, rfl⟩ : ∃ f, fuel = f + 1 := by
      cases fuel with
      | zero => simp at hfuel
      | succ f => exact ⟨f, rfl⟩
    have hfields := stringAdvance_fields t c hend
    have hdrop2 : (t.stringAdvance c).source.drop
        ((t.stringAdvance c).start + (t.stringAdvance c).length) = rest := by
      rw [hfields.1, hfields.2.1, hfields.2.2.1, show t.start + (t.length + 1)
        = t.start + t.length + 1 from by omega, ← List.tail_drop, hrem, List.tail_cons]
    have hcount : (c :: rest).count '\n' = rest.count '\n' + (if c = '\n' then 1 else 0) := by
      simp [List.count_cons]
    have hlen : rest.length ≤ f := by simpa using hfuel
    have hline2 : ∀ t' : Tokenizer, t'.line = (t.stringAdvance c).line + rest.count '\n' →
        t'.line = t.line + (c :: rest).count '\n' := by
      intro t' h'
      rw [h', hfields.2.2.2, hcount]
      by_cases hc : c = '\n'
      · simp [hc]
        omega
      · simp [hc]
    cases hesc : escaped with
    | true =>
      rw [hesc] at hno
      obtain ⟨t', v, e, heq, hend', hline⟩ :=
        ih f (t.stringAdvance c) endq (value ++ [escapeChar c]) false hdrop2
          (by simpa [hasCloser] using hno) hlen
      refine ⟨t', v, e, ?_, hend', hline2 t' hline⟩
      simp only [Tokenizer.stringLoop, hend, Bool.false_eq_true, if_false, hpeek]
      simpa using heq
    | false =>
      rw [hesc] at hno
      by_cases hbs : c = '\\'
      · obtain ⟨t', v, e, heq, hend', hline⟩ :=
          ih f (t.stringAdvance c) endq value true hdrop2
            (by simpa [hasCloser, hbs] using hno) hlen
        refine ⟨t', v, e, ?_, hend', hline2 t' hline⟩
        simp only [Tokenizer.stringLoop, hend, Bool.false_eq_true, if_false, hpeek, hbs]
        simpa [hbs] using heq
      · have hq : c ≠ endq := by
          intro hcq
          subst hcq
          simp [hasCloser, hbs] at hno
        obtain ⟨t', v, e, heq, hend', hline⟩ :=
          ih f (t.stringAdvance c) endq (value ++ [c]) false hdrop2
            (by simpa [hasCloser, hbs, hq] using hno) hlen
        refine ⟨t', v, e, ?_, hend', hline2 t' hline⟩
        simp only [Tokenizer.stringLoop, hend, Bool.false_eq_true, if_false, hpeek, hbs, hq]
        simpa using heq

theorem parse_value_unexpected_eof (fuel : Nat) (ts : TokenStream)
    (h : ts.current.kind = .EndOfFile) :
    parse_value (fuel + 1) ts = .error ⟨unexpectedTokenMsg .EndOfFile⟩ := by
  simp [parse_value, h]

theorem parse_tokens_eof (ts : TokenStream) (h : ts.current.kind = .EndOfFile) :
    parse_tokens ts = .error ⟨unexpectedTokenMsg .EndOfFile⟩ := by
  unfold parse_tokens
  rw [show 2 * ts.tokens.length + 4 = (2 * ts.tokens.length + 3) + 1 from rfl,
    parse_value_unexpected_eof _ _ h]

theorem scanLoop_whitespace :
    ∀ (rem : List Char) (fuel : Nat) (t : Tokenizer),
      t.source.drop (t.start + t.length) = rem →
      (∀ c ∈ rem, c = ' ' ∨ c = '\t' ∨ c = '\r' ∨ c = '\n') →
      rem.length ≤ fuel →
      ∃ t', Tokenizer.scanLoop fuel t = .ok t'
        ∧ t'.tokens = t.tokens ∧ t'.source = t.source := by
  intro rem
  induction rem with
  | nil =>
    intro fuel t hrem _ _
    have hend : t.is_at_end = true := by
      simp only [Tokenizer.is_at_end, decide_eq_true_eq]
      by_contra hle
      rw [List.drop_eq_nil_iff] at hrem
      omega
    refine ⟨t, ?_, rfl, rfl⟩
    cases fuel with
    | zero => simp [Tokenizer.scanLoop, hend]
    | succ f => simp [Tokenizer.scanLoop, hend]
  | cons c rest ih =>
    intro fuel t hrem hws hfuel
    have hend := not_at_end_of_drop_cons hrem
    have h' : ¬ (t.source.length ≤ t.start + t.length) := by
      simpa [Tokenizer.is_at_end] using hend
    obtain ⟨f, rfl⟩ : ∃ f, fuel = f + 1 := by
      cases fuel with
      | zero => simp at hfuel
      | succ f => exact ⟨f, rfl⟩
    have hc0 : t.source.getD (t.start + t.length) '\x00' = c := by
      rw [getD_eq_headD_drop, hrem, List.headD_cons]
    simp only [List.getD_eq_getElem?_getD] at hc0
    have hstep : ∃ t2 : Tokenizer, t.scan_token = .ok t2 ∧ t2.tokens = t.tokens
        ∧ t2.source = t.source ∧ t2.start + t2.length = t.start + t.length + 1 := by
      rcases hws c (by simp) with hc | hc | hc | hc
      case inr.inr.inr =>
        subst hc
        have hok : t.scan_token =
            .ok { t with start := t.start + t.length, length := 1, line := t.line + 1, column := 1 } := by
          simp [Tokenizer.scan_token, Tokenizer.sync_cursors, Tokenizer.advance,
            Tokenizer.is_at_end, h', hc0]
        exact ⟨_, hok, rfl, rfl, rfl⟩
      all_goals {
        subst hc
        have hok : t.scan_token =
            .ok { t with start := t.start + t.length, length := 1, column := t.column + 1 } := by
          simp [Tokenizer.scan_token, Tokenizer.sync_cursors, Tokenizer.advance,
            Tokenizer.is_at_end, h', hc0]
        exact ⟨_, hok, rfl, rfl, rfl⟩ }
    obtain ⟨t2, hok, htk, hsrc, hsum⟩ := hstep
    have hdrop2 : t2.source.drop (t2.start + t2.length) = rest := by
      rw [hsrc, hsum, ← List.tail_drop, hrem, List.tail_cons]
    obtain ⟨t', hok', htk', hsrc'⟩ := ih f t2 hdrop2
      (fun x hx => hws x (by simp [hx])) (by simpa using hfuel)
    refine ⟨t', ?_, by rw [htk', htk], by rw [hsrc', hsrc]⟩
    simp only [Tokenizer.scanLoop, hend, Bool.false_eq_true, if_false, hok]
    exact hok'

theorem scanLoop_at_end (fuel : Nat) (t : Tokenizer) (h : t.is_at_end = true) :
    Tokenizer.scanLoop fuel t = .ok t := by
  cases fuel <;> simp [Tokenizer.scanLoop, h]

theorem is_digit_ne (c : Char) (h : is_digit c = true) :
    c ≠ '\n' ∧ c ≠ ' ' ∧ c ≠ '\t' ∧ c ≠ '\r' ∧ c ≠ '[' ∧ c ≠ ']' ∧ c ≠ '{' ∧ c ≠ '}'
    ∧ c ≠ ',' ∧ c ≠ ':' ∧ c ≠ '"' ∧ c ≠ '\x27' ∧ c ≠ '-' ∧ c ≠ '.' := by
  refine ⟨?_, ?_, ?_, ?_, ?_, ?_, ?_, ?_, ?_, ?_, ?_, ?_, ?_, ?_⟩ <;>
    (intro hc; subst hc; exact absurd h (by decide))

theorem takeWhile_dropWhile_append (p : Char → Bool) :
    ∀ (ds rest : List Char), (∀ c ∈ ds, p c = true) →
      (∀ c, rest.head? = some c → p c = false) →
      (ds ++ rest).takeWhile p = ds ∧ (ds ++ rest).dropWhile p = rest := by
  intro ds
  induction ds with
  | nil =>
    intro rest _ hrest
    cases rest with
    | nil => simp
    | cons r rs =>
      have hr := hrest r rfl
      simp [List.takeWhile_cons, List.dropWhile_cons, hr]
  | cons d dtl ih =>
    intro rest hds hrest
    have hd := hds d (by simp)
    obtain ⟨h1, h2⟩ := ih rest (fun c hc => hds c (by simp [hc])) hrest
    simp [List.takeWhile_cons, List.dropWhile_cons, hd, h1, h2]

theorem parseF64_tail_part (neg : Bool) (ds : List Char) (frac : Option (List Char))
    (hds : ds ≠ []) (hdig : ∀ c ∈ ds, is_digit c = true)
    (hfrac : ∀ fs, frac = some fs → fs ≠ [] ∧ ∀ c ∈ fs, is_digit c = true) :
    (if (ds ++ fracTail frac).takeWhile is_digit = [] then none
     else
       match (ds ++ fracTail frac).dropWhile is_digit with
       | [] => some (decimalVal neg ((ds ++ fracTail frac).takeWhile is_digit) none)
       | '.' :: after =>
         if after.dropWhile is_digit = [] then
           some (decimalVal neg ((ds ++ fracTail frac).takeWhile is_digit)
             (some (after.takeWhile is_digit)))
         else none
       | _ => none)
      = some (decimalVal neg ds frac) := by
  have hft : ∀ c, (fracTail frac).head? = some c → is_digit c = false := by
    intro c hc
    cases frac with
    | none => simp [fracTail] at hc
    | some fs =>
      simp only [fracTail, List.head?_cons, Option.some.injEq] at hc
      subst hc
      decide
  obtain ⟨htake, hdrop⟩ := takeWhile_dropWhile_append is_digit ds (fracTail frac) hdig hft
  rw [htake, hdrop, if_neg hds]
  cases frac with
  | none => simp [fracTail]
  | some fs =>
    obtain ⟨hfs, hfsdig⟩ := hfrac fs rfl
    have hfs2 := takeWhile_dropWhile_append is_digit fs [] hfsdig (by intro c hc; simp at hc)
    rw [List.append_nil] at hfs2
    simp [fracTail, hfs2.1, hfs2.2]

theorem parseF64_numeral (neg : Bool) (ds : List Char) (frac : Option (List Char))
    (hds : ds ≠ []) (hdig : ∀ c ∈ ds, is_digit c = true)
    (hfrac : ∀ fs, frac = some fs → fs ≠ [] ∧ ∀ c ∈ fs, is_digit c = true) :
    parseF64 (String.mk (numeralChars neg ds frac)) = some (decimalVal neg ds frac) := by
  obtain ⟨d, ds', rfl⟩ := List.exists_cons_of_ne_nil hds
  cases neg with
  | true =>
    have hcs : numeralChars true (d :: ds') frac = '-' :: ((d :: ds') ++ fracTail frac) := by
      simp [numeralChars]
    simp only [parseF64, hcs, List.headD_cons, List.tail_cons]
    simpa using parseF64_tail_part true (d :: ds') frac hds hdig hfrac
  | false =>
    have hd : is_digit d = true := hdig d (by simp)
    have hne : d ≠ '-' := (is_digit_ne d hd).2.2.2.2.2.2.2.2.2.2.2.2.1
    have hcs : numeralChars false (d :: ds') frac = d :: (ds' ++ fracTail frac) := by
      simp [numeralChars]
    simp only [parseF64, hcs, List.headD_cons]
    rw [if_neg hne]
    have := parseF64_tail_part false (d :: ds') frac hds hdig hfrac
    simp only [List.cons_append] at this
    simpa [hne] using this

theorem advance_state_of_not_at_end (t : Tokenizer) (h : t.is_at_end = false) :
    (t.advance).2 = { t with length := t.length + 1, column := t.column + 1 } := by
  simp [Tokenizer.advance, h]

theorem numberLoop_digits :
    ∀ (ds rest : List Char) (fuel : Nat) (t : Tokenizer),
      t.source.drop (t.start + t.length) = ds ++ rest →
      (∀ c ∈ ds, is_digit c = true) →
      is_digit (rest.headD '\x00') = false →
      ds.length ≤ fuel →
      Tokenizer.numberLoop fuel t
        = { t with length := t.length + ds.length, column := t.column + ds.length } := by
  intro ds
  induction ds with
  | nil =>
    intro rest fuel t hrem hdig hstop _
    have hpeek : t.peek = rest.headD '\x00' := by
      rw [Tokenizer.peek, getD_eq_headD_drop]
      simp only [List.nil_append] at hrem
      rw [hrem]
    cases fuel with
    | zero => rfl
    | succ f =>
      rw [Tokenizer.numberLoop, hpeek, hstop]
      rfl
  | cons d ds' ih =>
    intro rest fuel t hrem hdig hstop hfuel
    simp only [List.cons_append] at hrem
    cases fuel with
    | zero => simp at hfuel
    | succ f =>
      have hpeek : t.peek = d := peek_of_drop_cons hrem
      have hend : t.is_at_end = false := not_at_end_of_drop_cons hrem
      have hd : is_digit d = true := hdig d (by simp)
      have hadv := advance_state_of_not_at_end t hend
      have hdrop2 : ((t.advance).2).source.drop (((t.advance).2).start + ((t.advance).2).length)
          = ds' ++ rest := by
        rw [hadv]
        show t.source.drop (t.start + (t.length + 1)) = ds' ++ rest
        rw [show t.start + (t.length + 1) = t.start + t.length + 1 from by omega,
          ← List.tail_drop, hrem, List.tail_cons]
      rw [Tokenizer.numberLoop, hpeek, hd, if_pos rfl,
        ih rest f ((t.advance).2) hdrop2 (fun c hc => hdig c (by simp [hc])) hstop
          (by simpa using hfuel),
        hadv]
      have h1 : t.length + 1 + ds'.length = t.length + (d :: ds').length := by
        simp
        omega
      have h2 : t.column + 1 + ds'.length = t.column + (d :: ds').length := by
        simp
        omega
      simp only [h1, h2]

theorem number_consumes (t : Tokenizer) (ds : List Char) (frac : Option (List Char))
    (hrem : t.source.drop (t.start + t.length) = ds ++ fracTail frac)
    (hdig : ∀ c ∈ ds, is_digit c = true)
    (hfrac : ∀ fs, frac = some fs → fs ≠ [] ∧ ∀ c ∈ fs, is_digit c = true) :
    t.number = ({ t with
      length := t.length + (ds.length + fracLen frac),
      column := t.column + (ds.length + fracLen frac) } : Tokenizer).make_token .Number := by
  have hlendrop : (t.source.drop (t.start + t.length)).length ≤ t.source.length := by
    simp only [List.length_drop]
    omega
  have hstop : is_digit ((fracTail frac).headD '\x00') = false := by
    cases frac <;> simp [fracTail] <;> decide
  have h1 := numberLoop_digits ds (fracTail frac) (t.source.length + 1) t hrem hdig hstop
    (by rw [hrem] at hlendrop; simp at hlendrop; omega)
  rw [Tokenizer.number, h1]
  cases frac with
  | none =>
    have hrem1 : t.source.drop (t.start + (t.length + ds.length)) = [] := by
      rw [show t.start + (t.length + ds.length) = t.start + t.length + ds.length from by omega,
        ← List.drop_drop, hrem]
      simp [fracTail]
    have hend1 : ({ t with
        length := t.length + ds.length,
        column := t.column + ds.length } : Tokenizer).is_at_end = true := by
      simp only [Tokenizer.is_at_end, decide_eq_true_eq]
      rw [List.drop_eq_nil_iff] at hrem1
      omega
    rw [show Tokenizer.check { t with
        length := t.length + ds.length,
        column := t.column + ds.length } '.' = false from by simp [Tokenizer.check, hend1]]
    simp [Tokenizer.make_token, fracLen]
  | some fs =>
    obtain ⟨hfs, hfsdig⟩ := hfrac fs rfl
    obtain ⟨f0, fs', rfl⟩ := List.exists_cons_of_ne_nil hfs
    set t1 : Tokenizer := { t with
      length := t.length + ds.length,
      column := t.column + ds.length } with ht1
    have hrem1 : t1.source.drop (t1.start + t1.length) = '.' :: (f0 :: fs') := by
      show t.source.drop (t.start + (t.length + ds.length)) = '.' :: (f0 :: fs')
      rw [show t.start + (t.length + ds.length) = t.start + t.length + ds.length from by omega,
        ← List.drop_drop, hrem]
      simp [fracTail]
    have hend1 : t1.is_at_end = false := not_at_end_of_drop_cons hrem1
    have hpeek1 : t1.peek = '.' := peek_of_drop_cons hrem1
    have hcheck : t1.check '.' = true := by
      simp [Tokenizer.check, hend1, hpeek1]
    have hpn : t1.peek_next = f0 := by
      rw [Tokenizer.peek_next, getD_eq_headD_drop,
        show t1.start + t1.length + 1 = t1.start + (t1.length + 1) from by omega]
      have : t1.source.drop (t1.start + (t1.length + 1)) = f0 :: fs' := by
        rw [show t1.start + (t1.length + 1) = t1.start + t1.length + 1 from by omega,
          ← List.tail_drop, hrem1, List.tail_cons]
      rw [this, List.headD_cons]
    have hadv1 := advance_state_of_not_at_end t1 hend1
    have hdrop2 : ((t1.advance).2).source.drop (((t1.advance).2).start + ((t1.advance).2).length)
        = (f0 :: fs') ++ [] := by
      rw [hadv1]
      show t1.source.drop (t1.start + (t1.length + 1)) = (f0 :: fs') ++ []
      rw [show t1.start + (t1.length + 1) = t1.start + t1.length + 1 from by omega,
        ← List.tail_drop, hrem1, List.tail_cons, List.append_nil]
    have h2 := numberLoop_digits (f0 :: fs') [] (t1.source.length + 1) ((t1.advance).2) hdrop2
      hfsdig (by decide)
      (by
        have : (t1.source.drop (t1.start + t1.length)).length ≤ t1.source.length := by
          simp only [List.length_drop]; omega
        rw [hrem1] at this
        simp at this ⊢
        omega)
    have hcond : (t1.check '.' && is_digit t1.peek_next) = true := by
      rw [hcheck, hpn, hfsdig f0 (by simp)]
      rfl
    rw [if_pos hcond, h2, hadv1]
    show Tokenizer.make_token _ .Number = _
    have harith1 : t.length + ds.length + 1 + (f0 :: fs').length
        = t.length + (ds.length + fracLen (some (f0 :: fs'))) := by
      simp [fracLen]
      omega
    have harith2 : t.column + ds.length + 1 + (f0 :: fs').length
        = t.column + (ds.length + fracLen (some (f0 :: fs'))) := by
      simp [fracLen]
      omega
    simp only [ht1, harith1, harith2]

theorem scan_token_start_minus (L : List Char) (d : Char) (rest : List Char)
    (hL : L = '-' :: d :: rest) (hd : is_digit d = true) :
    Tokenizer.scan_token ⟨L, 1, 1, 0, 0, []⟩ = .ok (Tokenizer.number ⟨L, 1, 2, 0, 1, []⟩) := by
  subst hL
  simp [Tokenizer.scan_token, Tokenizer.sync_cursors, Tokenizer.advance, Tokenizer.is_at_end,
    Tokenizer.peek, hd]

theorem scan_token_start_digit (L : List Char) (d : Char) (rest : List Char)
    (hL : L = d :: rest) (hd : is_digit d = true) :
    Tokenizer.scan_token ⟨L, 1, 1, 0, 0, []⟩ = .ok (Tokenizer.number ⟨L, 1, 2, 0, 1, []⟩) := by
  subst hL
  obtain ⟨hd1, hd2, hd3, hd4, hd5, hd6, hd7, hd8, hd9, hd10, hd11, hd12, hd13, _⟩ :=
    is_digit_ne d hd
  simp [Tokenizer.scan_token, Tokenizer.sync_cursors, Tokenizer.advance, Tokenizer.is_at_end,
    Tokenizer.peek, hd, hd1, hd2, hd3, hd4, hd5, hd6, hd7, hd8, hd9, hd10, hd11, hd12, hd13]

theorem scan_tokens_numeral (neg : Bool) (ds : List Char) (frac : Option (List Char))
    (hds : ds ≠ []) (hdig : ∀ c ∈ ds, is_digit c = true)
    (hfrac : ∀ fs, frac = some fs → fs ≠ [] ∧ ∀ c ∈ fs, is_digit c = true) :
    (Tokenizer.new (String.mk (numeralChars neg ds frac))).scan_tokens
      = .ok (TokenStream.new
          [Token.new .Number (String.mk (numeralChars neg ds frac)) 1
            ((numeralChars neg ds frac).length + 1) ⟨0, (numeralChars neg ds frac).length⟩,
           Token.new .EndOfFile "\x00" 1 ((numeralChars neg ds frac).length + 1)
            ⟨0, (numeralChars neg ds frac).length⟩]) := by
  obtain ⟨d, ds', rfl⟩ := List.exists_cons_of_ne_nil hds
  have hd : is_digit d = true := hdig d (by simp)
  have ht0 : Tokenizer.new (String.mk (numeralChars neg (d :: ds') frac))
      = ⟨numeralChars neg (d :: ds') frac, 1, 1, 0, 0, []⟩ := rfl
  have hstep : Tokenizer.scan_token ⟨numeralChars neg (d :: ds') frac, 1, 1, 0, 0, []⟩
      = .ok (Tokenizer.number ⟨numeralChars neg (d :: ds') frac, 1, 2, 0, 1, []⟩) := by
    cases neg with
    | true =>
      exact scan_token_start_minus _ d (ds' ++ fracTail frac) (by simp [numeralChars]) hd
    | false =>
      exact scan_token_start_digit _ d (ds' ++ fracTail frac) (by simp [numeralChars]) hd
  have hconsumed : ∃ K : Nat, K + 1 = (numeralChars neg (d :: ds') frac).length
      ∧ Tokenizer.number ⟨numeralChars neg (d :: ds') frac, 1, 2, 0, 1, []⟩
        = Tokenizer.make_token ⟨numeralChars neg (d :: ds') frac, 1, 2 + K, 0, 1 + K, []⟩ .Number := by
    cases neg with
    | true =>
      refine ⟨(d :: ds').length + fracLen frac, ?_, ?_⟩
      · cases frac with
        | none => simp [numeralChars, fracTail, fracLen]
        | some fs => simp [numeralChars, fracTail, fracLen]; omega
      · have hnum := number_consumes (⟨numeralChars true (d :: ds') frac, 1, 2, 0, 1, []⟩ :
          Tokenizer) (d :: ds') frac (by simp [numeralChars]) hdig hfrac
        simpa using hnum
    | false =>
      refine ⟨ds'.length + fracLen frac, ?_, ?_⟩
      · cases frac with
        | none => simp [numeralChars, fracTail, fracLen]
        | some fs => simp [numeralChars, fracTail, fracLen]
      · have hnum := number_consumes (⟨numeralChars false (d :: ds') frac, 1, 2, 0, 1, []⟩ :
          Tokenizer) ds' frac (by simp [numeralChars]) (fun c hc => hdig c (by simp [hc])) hfrac
        simpa using hnum
  obtain ⟨K, hK, hnum⟩ := hconsumed
  have hpos : 0 < (numeralChars neg (d :: ds') frac).length := by omega
  have hmk : Tokenizer.make_token
      (⟨numeralChars neg (d :: ds') frac, 1, 2 + K, 0, 1 + K, []⟩ : Tokenizer) .Number
      = ⟨numeralChars neg (d :: ds') frac, 1, 2 + K, 0, 1 + K,
          [Token.new .Number (String.mk (numeralChars neg (d :: ds') frac)) 1 (2 + K)
            ⟨0, 1 + K⟩]⟩ := by
    simp only [Tokenizer.make_token, Tokenizer.make_token_with_lexeme, List.drop_zero,
      Nat.zero_add, List.nil_append]
    rw [show (1 + K) = (numeralChars neg (d :: ds') frac).length from by omega,
      List.take_length]
  have hend1 : (⟨numeralChars neg (d :: ds') frac, 1, 1, 0, 0, []⟩ : Tokenizer).is_at_end
      = false := by
    simp only [Tokenizer.is_at_end, decide_eq_false_iff_not, Nat.not_le]
    omega
  have hend2 : ∀ tks : List Token,
      (⟨numeralChars neg (d :: ds') frac, 1, 2 + K, 0, 1 + K, tks⟩ : Tokenizer).is_at_end
        = true := by
    intro tks
    simp only [Tokenizer.is_at_end, decide_eq_true_eq]
    omega
  have hloop : Tokenizer.scanLoop ((numeralChars neg (d :: ds') frac).length + 1)
      (⟨numeralChars neg (d :: ds') frac, 1, 1, 0, 0, []⟩ : Tokenizer)
      = .ok (⟨numeralChars neg (d :: ds') frac, 1, 2 + K, 0, 1 + K,
          [Token.new .Number (String.mk (numeralChars neg (d :: ds') frac)) 1 (2 + K)
            ⟨0, 1 + K⟩]⟩ : Tokenizer) := by
    simp only [Tokenizer.scanLoop, hend1, Bool.false_eq_true, if_false, hstep, hnum, hmk]
    exact scanLoop_at_end _ _ (hend2 _)
  simp only [Tokenizer.scan_tokens, ht0, hloop]
  simp only [Tokenizer.make_token_with_lexeme, TokenStream.new, Token.new, List.cons_append,
    List.nil_append]
  rw [show (2 + K) = (numeralChars neg (d :: ds') frac).length + 1 from by omega,
    show (1 + K) = (numeralChars neg (d :: ds') frac).length from by omega]
  simp

theorem parse_tokens_number (numTok eofTok : Token) (q : ℚ)
    (hkind : numTok.kind = .Number)
    (hval : parseF64 numTok.lexeme = some q) :
    parse_tokens (TokenStream.new [numTok, eofTok]) = .ok (.Number q) := by
  unfold parse_tokens
  rw [show (2 * (TokenStream.new [numTok, eofTok]).tokens.length + 4) = 7 + 1 from rfl]
  simp [parse_value, TokenStream.current, TokenStream.new, TokenStream.advance,
    TokenStream.previous, hkind, hval]

end Saffron

open Saffron

/-! ## Claim theorems -/

/-- C1: parsing an object literal in which the same string key occurs more
than once succeeds, and the resulting object maps that key to the value of
its last occurrence with keys unique in the final map: concretely,
`parse('{"k":1,"k":2}')` yields an object whose single entry maps `k` to
`Number 2`; and in general the map-insertion used for each member makes a
later write for a key the one that is looked up, while preserving
distinctness of the stored keys. -/
theorem c1_duplicate_keys_last_write_wins :
    Json.parse "\x7b\"k\":1,\"k\":2\x7d" = .ok ⟨.Object [("k", .Number 2)]⟩
    ∧ (∀ (m : List (String × JsonElement)) (k : String) (v : JsonElement),
        (insertHM m k v).lookup k = some v)
    ∧ (∀ (m : List (String × JsonElement)) (k : String) (v : JsonElement),
        (m.map Prod.fst).Nodup → ((insertHM m k v).map Prod.fst).Nodup) :=
  ⟨rfl, lookup_insertHM, nodup_keys_insertHM⟩

/-- C1 witness: the duplicate-key parts of the claim evaluated at concrete
inputs, with the uniqueness hypothesis discharged at a concrete map. -/
theorem c1_duplicate_keys_witness :
    (insertHM [("a", JsonElement.Null)] "k" (JsonElement.Number 2)).lookup "k"
      = some (JsonElement.Number 2)
    ∧ ((insertHM [("a", JsonElement.Null)] "k" (JsonElement.Number 2)).map Prod.fst).Nodup :=
  ⟨c1_duplicate_keys_last_write_wins.2.1 [("a", JsonElement.Null)] "k" (JsonElement.Number 2),
   c1_duplicate_keys_last_write_wins.2.2 [("a", JsonElement.Null)] "k" (JsonElement.Number 2)
     (by simp)⟩

/-- C2 counterexample: the token sequence of the input `"1 foo"` contains
an `Identifier` token, yet the parse entry point succeeds (returning
`Number 1`), because tokens after the first complete value are never
examined; so a bare identifier does not cause an error *regardless of
position*, refuting the claim as stated. -/
theorem c2_identifier_after_value_counterexample :
    ((Tokenizer.new "1 foo").scan_tokens).map (fun ts => ts.tokens.map Token.kind)
      = .ok [.Number, .Identifier, .EndOfFile]
    ∧ Json.parse "1 foo" = .ok ⟨.Number 1⟩ :=
  ⟨rfl, rfl⟩

/-- C2 (amended): whenever the parser's current token is an `Identifier`,
`parse_value` returns a `ParseError` (so a document whose *first* value
position holds a bare identifier, e.g. `"foo"`, fails to parse); but the
parse entry point stops after the first complete value without requiring
the stream to be exhausted, so an `Identifier` appearing after a complete
top-level value is ignored. -/
theorem c2_identifier_rejected_at_value_position :
    (∀ (fuel : Nat) (ts : TokenStream), ts.current.kind = .Identifier →
        parse_value (fuel + 1) ts = .error ⟨unexpectedTokenMsg .Identifier⟩)
    ∧ Json.parse "foo" = .error ⟨unexpectedTokenMsg .Identifier⟩ := by
  refine ⟨fun fuel ts h => ?_, rfl⟩
  simp [parse_value, h]

/-- C2 witness: the amended statement applied to a concrete one-token
stream holding an identifier. -/
theorem c2_identifier_witness :
    parse_value 1 (TokenStream.new [Token.new .Identifier "foo" 1 4 ⟨0, 3⟩])
      = .error ⟨unexpectedTokenMsg .Identifier⟩ :=
  c2_identifier_rejected_at_value_position.1 0
    (TokenStream.new [Token.new .Identifier "foo" 1 4 ⟨0, 3⟩]) rfl

/-- C3: after each member/element the parser accepts only a comma (after
which another member/element is mandatory) or the matching closer, and an
object key must be a `String`: the trailing-comma inputs `[1,2,]` and
`{"a":1,}`, the missing-separator inputs `[1 2]` and `{"a":1 "b":2}`, and
the non-string-key input `{1:"v"}` all make `parse` return a `ParseError`. -/
theorem c3_separator_strictness :
    Json.parse "[1,2,]" = .error ⟨unexpectedTokenMsg .RightBracket⟩
    ∧ Json.parse "\x7b\"a\":1,\x7d" = .error ⟨expectedStringKeyMsg .RightBrace⟩
    ∧ Json.parse "[1 2]" = .error ⟨expectedCommaBracketMsg .Number⟩
    ∧ Json.parse "\x7b\"a\":1 \"b\":2\x7d" = .error ⟨expectedCommaBraceMsg .String⟩
    ∧ Json.parse "\x7b1:\"v\"\x7d" = .error ⟨expectedStringKeyMsg .Number⟩ :=
  ⟨rfl, rfl, rfl, rfl, rfl⟩

/-- C5: for every token-stream state (any token list, any position),
`advance()` moves the position forward by exactly one and returns exactly
the token `current()` would have returned immediately before the call. -/
theorem c5_advance_returns_pre_advance_current :
    ∀ ts : TokenStream, ts.advance = (ts.current, { ts with position := ts.position + 1 }) := by
  intro ts
  obtain ⟨tokens, position⟩ := ts
  refine Prod.ext ?_ rfl
  show TokenStream.previous ⟨tokens, position + 1⟩ = TokenStream.current ⟨tokens, position⟩
  cases tokens with
  | nil => rfl
  | cons a rest =>
    simp only [TokenStream.previous, TokenStream.current, List.isEmpty_cons, Bool.false_eq_true,
      if_false, Nat.succ_ne_zero, if_neg, List.length_cons]
    rcases Nat.lt_or_ge position (rest.length + 1) with hlt | hge
    · rw [if_neg (by omega), if_neg (by omega), Nat.add_sub_cancel]
    · rw [if_pos (by omega), if_pos (by omega),
        getLastD_eq_getD_length_sub_one _ _ (by simp)]
      simp


/-- C6: when the position of a token stream is at or beyond the length of
its (non-empty) token list, `current()` and `look_ahead(k)` for every `k`
return the final token of the list, and they keep returning that same
sentinel token no matter how many further `advance()` calls are made. -/
theorem c6_past_end_clamps_to_last :
    ∀ (ts : TokenStream) (h1 : ts.tokens ≠ []), ts.tokens.length ≤ ts.position →
      ts.current = ts.tokens.getLast h1
      ∧ (∀ k, ts.look_ahead k = ts.tokens.getLast h1)
      ∧ (∀ n, (ts.advanceN n).current = ts.tokens.getLast h1
            ∧ ∀ k, (ts.advanceN n).look_ahead k = ts.tokens.getLast h1) := by
  intro ts h1 h2
  rw [getLast_eq_getLastD ts.tokens emptySentinel h1]
  refine ⟨current_past_end ts h1 h2, fun k => look_ahead_past_end ts h1 h2 k, fun n => ?_⟩
  have ht := advanceN_tokens ts n
  have hp := advanceN_position_ge ts n
  have h1' : (ts.advanceN n).tokens ≠ [] := by rw [ht]; exact h1
  have h2' : (ts.advanceN n).tokens.length ≤ (ts.advanceN n).position := by rw [ht]; omega
  constructor
  · rw [current_past_end _ h1' h2', ht]
  · intro k
    rw [look_ahead_past_end _ h1' h2' k, ht]

/-- C6 witness: a stream with one token whose position (3) is beyond the
list length (1): all accessors, also after further advances, return the
final token. -/
theorem c6_past_end_witness :
    TokenStream.current ⟨[emptySentinel], 3⟩ = emptySentinel
    ∧ TokenStream.look_ahead ⟨[emptySentinel], 3⟩ 7 = emptySentinel
    ∧ (TokenStream.advanceN ⟨[emptySentinel], 3⟩ 5).current = emptySentinel := by
  have h := c6_past_end_clamps_to_last ⟨[emptySentinel], 3⟩ (by simp) (by simp)
  exact ⟨h.1, h.2.1 7, (h.2.2 5).1⟩

/-- C7: inside a string literal, the character `c` following a backslash
contributes `escapeChar c` to the decoded value (one loop step from the
escaped state appends it and continues unescaped), where the escape map
sends `n` to newline, `t` to tab, `r` to carriage return, backslash to
backslash, either quote to itself, and every other character to itself —
an unrecognized escape is never an error, as the end-to-end example with
the unrecognized escape `\q` shows. -/
theorem c7_escape_decoding :
    (∀ (fuel : Nat) (t : Tokenizer) (endq : Char) (value : List Char) (c : Char),
        t.is_at_end = false → t.peek = c →
        Tokenizer.stringLoop (fuel + 1) t endq value true
          = Tokenizer.stringLoop fuel (t.stringAdvance c) endq (value ++ [escapeChar c]) false)
    ∧ escapeChar 'n' = '\n' ∧ escapeChar 't' = '\t' ∧ escapeChar 'r' = '\r'
    ∧ escapeChar '\\' = '\\' ∧ escapeChar '"' = '"' ∧ escapeChar '\x27' = '\x27'
    ∧ (∀ c : Char, c ∉ (['n', 't', 'r', '\\', '"', '\x27'] : List Char) → escapeChar c = c)
    ∧ Json.parse "\"a\\qb\"" = .ok ⟨.String "aqb"⟩ := by
  refine ⟨fun fuel t endq value c hend hc => ?_, rfl, rfl, rfl, rfl, rfl, rfl,
    fun c hc => ?_, rfl⟩
  · subst hc
    simp [Tokenizer.stringLoop, hend]
  · simp only [List.mem_cons, List.not_mem_nil, or_false, not_or] at hc
    obtain ⟨h1, h2, h3, h4, h5, h6⟩ := hc
    simp [escapeChar, h1, h2, h3, h4, h5, h6]

/-- C7 witness: one escaped-state loop step at a concrete tokenizer, and
the identity of the escape map on the unrecognized character `x`. -/
theorem c7_escape_witness :
    Tokenizer.stringLoop 4 (Tokenizer.new "q") '"' [] true
      = Tokenizer.stringLoop 3 ((Tokenizer.new "q").stringAdvance 'q') '"' [escapeChar 'q'] false
    ∧ escapeChar 'x' = 'x' :=
  ⟨c7_escape_decoding.1 3 (Tokenizer.new "q") '"' [] 'q' (by decide) rfl,
   c7_escape_decoding.2.2.2.2.2.2.2.1 'x' (by decide)⟩

/-- C8: a string literal opened with quote `endq` is closed only by an
unescaped occurrence of that same character: an unescaped character other
than backslash and `endq` (in particular the other quote character) is
ordinary content appended to the value, while an unescaped `endq` stops
the scanning loop; concretely, `parse("'hello'")` yields `String "hello"`,
a single-quoted string may contain an unescaped `"`, and a double-quoted
string may contain an unescaped `'`. -/
theorem c8_quote_closing_discipline :
    (∀ (fuel : Nat) (t : Tokenizer) (endq : Char) (value : List Char) (c : Char),
        t.is_at_end = false → t.peek = c → c ≠ '\\' → c ≠ endq →
        Tokenizer.stringLoop (fuel + 1) t endq value false
          = Tokenizer.stringLoop fuel (t.stringAdvance c) endq (value ++ [c]) false)
    ∧ (∀ (fuel : Nat) (t : Tokenizer) (endq : Char) (value : List Char),
        t.is_at_end = false → t.peek = endq → endq ≠ '\\' →
        Tokenizer.stringLoop (fuel + 1) t endq value false = (t, value, false))
    ∧ Json.parse "\x27hello\x27" = .ok ⟨.String "hello"⟩
    ∧ Json.parse "\x27a\"b\x27" = .ok ⟨.String "a\"b"⟩
    ∧ Json.parse "\"a\x27b\"" = .ok ⟨.String "a\x27b"⟩ := by
  refine ⟨fun fuel t endq value c hend hc hbs hq => ?_,
    fun fuel t endq value hend hc hq => ?_, rfl, rfl, rfl⟩
  · subst hc
    simp [Tokenizer.stringLoop, hend, hbs, hq]
  · simp [Tokenizer.stringLoop, hend, hc, hq]

/-- C8 witness: one closing-quote loop step at a concrete tokenizer whose
next character is the opening quote. -/
theorem c8_quote_witness :
    Tokenizer.stringLoop 1 (Tokenizer.new "\x27") '\x27' ['h'] false
      = (Tokenizer.new "\x27", ['h'], false) :=
  c8_quote_closing_discipline.2.1 0 (Tokenizer.new "\x27") '\x27' ['h'] (by decide) rfl
    (by decide)

/-- C9: whenever the remaining input of an open string literal contains no
unescaped occurrence of the closing quote, `Tokenizer::string` (and hence
the lexer and the parse entry point, as the concrete example shows) returns
a `ParseError` whose message reports the current line number — the line at
the point the input ran out, i.e. the opening line plus the newlines
scanned inside the literal; no token sequence is produced. -/
theorem c9_unterminated_string_error :
    (∀ (t : Tokenizer) (endq : Char),
        hasCloser (t.source.drop (t.start + t.length)) endq false = false →
        t.string endq = .error
          ⟨unterminatedMsg (t.line + (t.source.drop (t.start + t.length)).count '\n')⟩)
    ∧ Json.parse "\n\x27abc" = .error ⟨unterminatedMsg 2⟩ := by
  refine ⟨fun t endq hno => ?_, rfl⟩
  obtain ⟨t', v, e, heq, hend, hline⟩ :=
    stringLoop_no_closer (t.source.drop (t.start + t.length)) (t.source.length + 1) t endq
      [] false rfl hno (by simp only [List.length_drop]; omega)
  simp only [Tokenizer.string, heq, hend, if_true]
  rw [hline]

/-- C9 witness: an unclosed double-quoted literal at a concrete tokenizer
state; the reported line is the starting line (no newlines inside). -/
theorem c9_unterminated_witness :
    Tokenizer.string (Tokenizer.new "xyz") '"' = .error ⟨unterminatedMsg 1⟩ :=
  c9_unterminated_string_error.1 (Tokenizer.new "xyz") '"' (by decide)

/-- C10: for the empty input and for every input consisting only of
whitespace characters (space, tab, carriage return, newline), tokenization
succeeds and yields only the `EndOfFile` token, and the parse entry point
returns a `ParseError` (an `EndOfFile` token is not valid at value
position) and never a value. -/
theorem c10_empty_or_whitespace_error :
    ∀ s : String, (∀ c ∈ s.data, c = ' ' ∨ c = '\t' ∨ c = '\r' ∨ c = '\n') →
      (∃ ts, (Tokenizer.new s).scan_tokens = .ok ts ∧ ts.tokens.map Token.kind = [.EndOfFile])
      ∧ Json.parse s = .error ⟨unexpectedTokenMsg .EndOfFile⟩ := by
  intro s hws
  obtain ⟨t', hok, htk, _⟩ :=
    scanLoop_whitespace s.data (s.data.length + 1) (Tokenizer.new s) rfl hws (by simp)
  have hscan : (Tokenizer.new s).scan_tokens
      = .ok (TokenStream.new (t'.make_token_with_lexeme .EndOfFile "\x00").tokens) := by
    simp only [Tokenizer.scan_tokens]
    rw [show (Tokenizer.new s).source = s.data from rfl, hok]
  have htokens : (t'.make_token_with_lexeme .EndOfFile "\x00").tokens
      = [Token.new .EndOfFile "\x00" t'.line t'.column ⟨t'.start, t'.start + t'.length⟩] := by
    simp [Tokenizer.make_token_with_lexeme, htk, Tokenizer.new]
  refine ⟨⟨_, hscan, by simp [htokens, Token.new, TokenStream.new]⟩, ?_⟩
  simp only [Json.parse, hscan]
  rw [parse_tokens_eof _ (by simp [htokens, TokenStream.current, TokenStream.new, Token.new])]

/-- C10 witness: a concrete whitespace-only input fails with the
end-of-file syntax error. -/
theorem c10_whitespace_witness :
    Json.parse " \n" = .error ⟨unexpectedTokenMsg .EndOfFile⟩ :=
  (c10_empty_or_whitespace_error " \n" (by decide)).2

/-- C4: for every decimal numeral without exponent notation — optional
minus sign, one or more integer digits, optionally a dot followed by one
or more fraction digits — parsing yields `Number` equal to the value of
the numeral (the `f64` being modelled by that exact rational); and since
the lexer does not consume a decimal point that is not followed by a
digit into a number, an input with a second dot such as `123.456.789`
fails: the lexeme stops at `123.456` and the stray `.` is an invalid
character. -/
theorem c4_numeral_parsing :
    (∀ (neg : Bool) (ds : List Char) (frac : Option (List Char)),
        ds ≠ [] → (∀ c ∈ ds, is_digit c = true) →
        (∀ fs, frac = some fs → fs ≠ [] ∧ ∀ c ∈ fs, is_digit c = true) →
        Json.parse (String.mk (numeralChars neg ds frac))
          = .ok ⟨.Number (decimalVal neg ds frac)⟩)
    ∧ Json.parse "123.456.789" = .error ⟨invalidCharMsg '.' 1⟩ := by
  refine ⟨fun neg ds frac hds hdig hfrac => ?_, rfl⟩
  have hscan := scan_tokens_numeral neg ds frac hds hdig hfrac
  have hpf := parseF64_numeral neg ds frac hds hdig hfrac
  simp only [Json.parse, hscan]
  rw [parse_tokens_number
    (Token.new .Number (String.mk (numeralChars neg ds frac)) 1
      ((numeralChars neg ds frac).length + 1) ⟨0, (numeralChars neg ds frac).length⟩)
    (Token.new .EndOfFile "\x00" 1 ((numeralChars neg ds frac).length + 1)
      ⟨0, (numeralChars neg ds frac).length⟩)
    (decimalVal neg ds frac) rfl hpf]

/-- C4 witness: the numeral `-42.5` parses to `Number` of its exact
value. -/
theorem c4_numeral_witness :
    Json.parse "-42.5" = .ok ⟨.Number (decimalVal true ['4', '2'] (some ['5']))⟩ :=
  c4_numeral_parsing.1 true ['4', '2'] (some ['5']) (by decide) (by decide)
    (by intro fs hfs; cases hfs; exact ⟨by decide, by decide⟩)
